import Mathlib

/-!
# Verification of the salesbot-line fuzzy product resolution core

Shallow embedding of the core string/search functions of the repository
(`src/server.js`, `src/server_v3.js`, and the unnamed variants
`src/unnamed/part_000` / `part_001`) over `List Char`, together with
proofs of the specified properties.

Modelling conventions:
* JavaScript strings are modelled as `List Char`; `String.prototype.trim`,
  `toLowerCase` (ASCII folding), `includes`, `slice` and regex character
  classes are modelled by the explicit functions below.
* JavaScript numbers appearing in `similarity` are modelled as exact
  rationals (`ℚ`); catalog prices are modelled as naturals.
* `null` results are modelled by `Option`; the duck-typed
  `product | { multi: [...] }` result shape is the tagged union
  `SearchResult`.
-/

namespace Salesbot

/-- Whitespace test, modelling the JavaScript `\s` class / `trim` for the
whitespace characters that occur in this codebase. -/
def isSp (c : Char) : Bool :=
  c = ' ' || c = '\t' || c = '\n' || c = '\r' ||
  c = '\x0b' || c = '\x0c' || c = ' ' || c = '　'

/-- ASCII case folding of one character, modelling `toLowerCase` on the
code points exercised by the catalog (CJK characters are unaffected). -/
def lowerChar (c : Char) : Char :=
  if 'A' ≤ c ∧ c ≤ 'Z' then Char.ofNat (c.toNat + 32) else c

/-- `s.toLowerCase()` on the model strings. -/
def toLowerL (s : List Char) : List Char := s.map lowerChar

/-- Left trim: drop leading whitespace. -/
def trimL (s : List Char) : List Char := s.dropWhile isSp

/-- Right trim: drop trailing whitespace. -/
def trimR (s : List Char) : List Char := (s.reverse.dropWhile isSp).reverse

/-- `s.trim()`: drop leading and trailing whitespace. -/
def trimS (s : List Char) : List Char := trimL (trimR s)

/-- `l.includes(sub)`: substring test by scanning suffixes. -/
def containsSub (l sub : List Char) : Bool :=
  match l with
  | [] => sub.isEmpty
  | c :: t => sub.isPrefixOf (c :: t) || containsSub t sub

/-- Levenshtein edit distance between two strings, the recurrence computed
by the dynamic-programming matrix in `levenshtein` of `src/server.js`
lines 244-263 (and identically `src/server_v3.js` lines 187-205):
base rows/columns are the string lengths, and each inner cell is the
minimum of deletion, insertion and substitution costs. -/
def levenshtein (a b : List Char) : ℕ :=
  match a, b with
  | [], b => b.length
  | a, [] => a.length
  | x :: a', y :: b' =>
    min (levenshtein a' (y :: b') + 1)
      (min (levenshtein (x :: a') b' + 1)
        (levenshtein a' b' + (if x = y then 0 else 1)))
termination_by a.length + b.length
decreasing_by all_goals simp_arith [List.length]

/-- String similarity from `similarity` of `src/server.js` lines 265-272
(identical in `src/server_v3.js` lines 206-213): pick the longer input,
return 1 when it is empty, otherwise `(maxLen - editDist) / maxLen`
(division modelled exactly in `ℚ`). -/
def similarity (a b : List Char) : ℚ :=
  let longer := if a.length < b.length then b else a
  let shorter := if a.length < b.length then a else b
  if longer.length = 0 then 1
  else ((longer.length : ℚ) - (levenshtein longer shorter : ℚ)) / (longer.length : ℚ)

theorem levenshtein_nil_left (b : List Char) : levenshtein [] b = b.length := by
  simp [levenshtein]

theorem levenshtein_nil_right (a : List Char) : levenshtein a [] = a.length := by
  cases a <;> simp [levenshtein]

theorem levenshtein_cons_cons (x y : Char) (a b : List Char) :
    levenshtein (x :: a) (y :: b) =
      min (levenshtein a (y :: b) + 1)
        (min (levenshtein (x :: a) b + 1)
          (levenshtein a b + (if x = y then 0 else 1))) := by
  simp [levenshtein]

theorem levenshtein_self (a : List Char) : levenshtein a a = 0 := by
  induction a with
  | nil => simp [levenshtein]
  | cons x t ih => rw [levenshtein_cons_cons]; simp [ih]

theorem levenshtein_comm (a b : List Char) : levenshtein a b = levenshtein b a := by
  induction a generalizing b with
  | nil => cases b <;> simp [levenshtein]
  | cons x a' iha =>
    induction b with
    | nil => simp [levenshtein]
    | cons y b' ihb =>
      rw [levenshtein_cons_cons, levenshtein_cons_cons, iha (y :: b'), ihb, iha b']
      have hxy : (if x = y then 0 else 1) = if y = x then (0 : ℕ) else 1 := by
        by_cases h : x = y
        · simp [h]
        · rw [if_neg h, if_neg (fun hyx : y = x => h hyx.symm)]
      omega

theorem levenshtein_le_max (a b : List Char) :
    levenshtein a b ≤ max a.length b.length := by
  induction a generalizing b with
  | nil => simp [levenshtein]
  | cons x a' iha =>
    induction b with
    | nil => simp [levenshtein]
    | cons y b' ihb =>
      rw [levenshtein_cons_cons]
      have h1 := iha b'
      have h2 : (if x = y then 0 else 1) ≤ 1 := by split <;> omega
      simp only [List.length_cons]
      omega

/-- C6: for all strings `a` and `b`, `similarity(a, b) == similarity(b, a)`.
The source picks the longer string as first Levenshtein argument, so the
symmetry reduces to symmetry of the edit distance in the equal-length case. -/
theorem similarity_symmetric : ∀ a b : List Char, similarity a b = similarity b a := by
  intro a b
  rcases Nat.lt_trichotomy a.length b.length with h | h | h
  · have h2 : ¬ b.length < a.length := by omega
    simp only [similarity, if_pos h, if_neg h2]
  · have h1 : ¬ a.length < b.length := by omega
    have h2 : ¬ b.length < a.length := by omega
    simp only [similarity, if_neg h1, if_neg h2]
    rw [h, levenshtein_comm]
  · have h2 : ¬ a.length < b.length := by omega
    simp only [similarity, if_pos h, if_neg h2]

/-- One single-character edit: insertion, deletion or substitution at an
arbitrary position.  This is the claim's notion of an edit operation. -/
inductive EditStep : List Char → List Char → Prop
  | ins (u v : List Char) (c : Char) : EditStep (u ++ v) (u ++ c :: v)
  | del (u v : List Char) (c : Char) : EditStep (u ++ c :: v) (u ++ v)
  | sub (u v : List Char) (c d : Char) : EditStep (u ++ c :: v) (u ++ d :: v)

/-- A chain of exactly `n` single-character edits from one string to the
other. -/
inductive EditChain : ℕ → List Char → List Char → Prop
  | refl (a : List Char) : EditChain 0 a a
  | step {a b c : List Char} {n : ℕ} :
      EditStep a b → EditChain n b c → EditChain (n + 1) a c

theorem editStep_cons {a b : List Char} (c : Char) (h : EditStep a b) :
    EditStep (c :: a) (c :: b) := by
  cases h with
  | ins u v x => exact EditStep.ins (c :: u) v x
  | del u v x => exact EditStep.del (c :: u) v x
  | sub u v x y => exact EditStep.sub (c :: u) v x y

theorem editChain_cons {a b : List Char} {n : ℕ} (c : Char)
    (h : EditChain n a b) : EditChain n (c :: a) (c :: b) := by
  induction h with
  | refl a => exact EditChain.refl _
  | step hs _ ih => exact EditChain.step (editStep_cons c hs) ih

theorem EditChain.snoc {a b c : List Char} {n : ℕ}
    (h : EditChain n a b) (hs : EditStep b c) : EditChain (n + 1) a c := by
  induction h with
  | refl a => exact EditChain.step hs (EditChain.refl _)
  | step hs' _ ih => exact EditChain.step hs' (ih hs)

theorem editChain_nil_left (b : List Char) : EditChain b.length [] b := by
  induction b with
  | nil => exact EditChain.refl _
  | cons y b' ih =>
    exact EditChain.step (EditStep.ins [] [] y) (editChain_cons y ih)

theorem editChain_nil_right (a : List Char) : EditChain a.length a [] := by
  induction a with
  | nil => exact EditChain.refl _
  | cons x a' ih =>
    exact EditChain.step (EditStep.del [] a' x) ih

/-- There is a chain of exactly `levenshtein a b` edits from `a` to `b`. -/
theorem editChain_levenshtein (a b : List Char) :
    EditChain (levenshtein a b) a b := by
  have key : ∀ (n : ℕ) (a b : List Char), a.length + b.length ≤ n →
      EditChain (levenshtein a b) a b := by
    intro n
    induction n with
    | zero =>
      intro a b h
      have ha : a = [] := by cases a <;> simp_all
      have hb : b = [] := by cases b <;> simp_all
      subst ha; subst hb
      simpa [levenshtein] using EditChain.refl ([] : List Char)
    | succ n ih =>
      intro a b h
      match a, b with
      | [], b => simpa [levenshtein_nil_left] using editChain_nil_left b
      | x :: a', [] => simpa [levenshtein_nil_right] using editChain_nil_right (x :: a')
      | x :: a', y :: b' =>
        rw [levenshtein_cons_cons]
        have hdel : EditChain (levenshtein a' (y :: b') + 1) (x :: a') (y :: b') :=
          EditChain.step (EditStep.del [] a' x)
            (ih a' (y :: b') (by simp at h ⊢; omega))
        have hins : EditChain (levenshtein (x :: a') b' + 1) (x :: a') (y :: b') :=
          EditChain.snoc (ih (x :: a') b' (by simp at h ⊢; omega))
            (EditStep.ins [] b' y)
        have hsub : EditChain (levenshtein a' b' + (if x = y then 0 else 1))
            (x :: a') (y :: b') := by
          by_cases hxy : x = y
          · subst hxy
            simpa using editChain_cons x (ih a' b' (by simp at h ⊢; omega))
          · rw [if_neg hxy]
            exact EditChain.step (EditStep.sub [] a' x y)
              (editChain_cons y (ih a' b' (by simp at h ⊢; omega)))
        rcases Nat.lt_trichotomy (levenshtein a' (y :: b') + 1)
            (min (levenshtein (x :: a') b' + 1)
              (levenshtein a' b' + (if x = y then 0 else 1))) with h1 | h1 | h1
        · rw [min_eq_left (le_of_lt h1)]; exact hdel
        · rw [min_eq_left (le_of_eq h1)]; exact hdel
        · rw [min_eq_right (le_of_lt h1)]
          rcases Nat.lt_trichotomy (levenshtein (x :: a') b' + 1)
              (levenshtein a' b' + (if x = y then 0 else 1)) with h2 | h2 | h2
          · rw [min_eq_left (le_of_lt h2)]; exact hins
          · rw [min_eq_left (le_of_eq h2)]; exact hins
          · rw [min_eq_right (le_of_lt h2)]; exact hsub
  exact key (a.length + b.length) a b le_rfl

theorem levenshtein_cons_left_le (x : Char) (a b : List Char) :
    levenshtein (x :: a) b ≤ levenshtein a b + 1 := by
  cases b with
  | nil => simp [levenshtein_nil_right]
  | cons y b' => rw [levenshtein_cons_cons]; omega

theorem levenshtein_cons_right_le (y : Char) (a b : List Char) :
    levenshtein a (y :: b) ≤ levenshtein a b + 1 := by
  cases a with
  | nil => simp [levenshtein_nil_left]
  | cons x a' => rw [levenshtein_cons_cons]; omega

theorem lev_ins_le (u : List Char) : ∀ (b v : List Char) (c : Char),
    levenshtein b (u ++ v) ≤ levenshtein b (u ++ c :: v) + 1 := by
  induction u with
  | nil =>
    intro b v c
    simp only [List.nil_append]
    induction b with
    | nil => simp only [levenshtein_nil_left, List.length_cons]; omega
    | cons x b' ihb =>
      rw [levenshtein_cons_cons]
      have h1 := levenshtein_cons_left_le x b' v
      have h2 : (if x = c then 0 else 1) ≤ 1 := by split <;> omega
      omega
  | cons d u' ihu =>
    intro b v c
    simp only [List.cons_append]
    induction b with
    | nil => simp only [levenshtein_nil_left, List.length_cons, List.length_append]; omega
    | cons x b' ihb =>
      rw [levenshtein_cons_cons, levenshtein_cons_cons]
      have f2 := ihu (x :: b') v c
      have f3 := ihu b' v c
      have h2 : (if x = d then 0 else 1) ≤ 1 := by split <;> omega
      omega

theorem lev_del_le (u : List Char) : ∀ (b v : List Char) (c : Char),
    levenshtein b (u ++ c :: v) ≤ levenshtein b (u ++ v) + 1 := by
  induction u with
  | nil =>
    intro b v c
    simpa using levenshtein_cons_right_le c b v
  | cons d u' ihu =>
    intro b v c
    simp only [List.cons_append]
    induction b with
    | nil => simp only [levenshtein_nil_left, List.length_cons, List.length_append]; omega
    | cons x b' ihb =>
      rw [levenshtein_cons_cons, levenshtein_cons_cons]
      have f2 := ihu (x :: b') v c
      have f3 := ihu b' v c
      have h2 : (if x = d then 0 else 1) ≤ 1 := by split <;> omega
      omega

theorem lev_sub_le (u : List Char) : ∀ (b v : List Char) (c d : Char),
    levenshtein b (u ++ c :: v) ≤ levenshtein b (u ++ d :: v) + 1 := by
  induction u with
  | nil =>
    intro b v c d
    simp only [List.nil_append]
    induction b with
    | nil => simp only [levenshtein_nil_left, List.length_cons]; omega
    | cons x b' ihb =>
      rw [levenshtein_cons_cons, levenshtein_cons_cons]
      have h1 : (if x = c then 0 else 1) ≤ 1 := by split <;> omega
      have h2 : (if x = d then 0 else 1) ≤ 1 := by split <;> omega
      omega
  | cons e u' ihu =>
    intro b v c d
    simp only [List.cons_append]
    induction b with
    | nil => simp only [levenshtein_nil_left, List.length_cons, List.length_append]; omega
    | cons x b' ihb =>
      rw [levenshtein_cons_cons, levenshtein_cons_cons]
      have f2 := ihu (x :: b') v c d
      have f3 := ihu b' v c d
      have h2 : (if x = e then 0 else 1) ≤ 1 := by split <;> omega
      omega

theorem levenshtein_le_editStep {a b : List Char} (h : EditStep a b)
    (c : List Char) : levenshtein a c ≤ levenshtein b c + 1 := by
  cases h with
  | ins u v x =>
    rw [levenshtein_comm (u ++ v) c, levenshtein_comm (u ++ x :: v) c]
    exact lev_ins_le u c v x
  | del u v x =>
    rw [levenshtein_comm (u ++ x :: v) c, levenshtein_comm (u ++ v) c]
    exact lev_del_le u c v x
  | sub u v x y =>
    rw [levenshtein_comm (u ++ x :: v) c, levenshtein_comm (u ++ y :: v) c]
    exact lev_sub_le u c v x y

/-- No chain of edits from `a` to `b` is shorter than `levenshtein a b`. -/
theorem levenshtein_le_editChain {n : ℕ} {a b : List Char}
    (h : EditChain n a b) : levenshtein a b ≤ n := by
  induction h with
  | refl a => simp [levenshtein_self]
  | step hs hc ih =>
    exact le_trans (levenshtein_le_editStep hs _) (Nat.add_le_add_right ih 1)

theorem similarity_nil_nil : similarity [] [] = 1 := by
  simp [similarity]

theorem similarity_formula (a b : List Char) (h : ¬(a = [] ∧ b = [])) :
    similarity a b =
      (((max a.length b.length : ℕ) : ℚ) - (levenshtein a b : ℚ)) /
        ((max a.length b.length : ℕ) : ℚ) := by
  by_cases hlt : a.length < b.length
  · have hb0 : ¬ b.length = 0 := by omega
    have hmax : max a.length b.length = b.length := by omega
    simp only [similarity, if_pos hlt, if_neg hb0]
    rw [levenshtein_comm b a, hmax]
  · have ha0 : ¬ a.length = 0 := by
      intro h0
      exact h ⟨List.length_eq_zero.mp h0, List.length_eq_zero.mp (by omega)⟩
    have hmax : max a.length b.length = a.length := by omega
    simp only [similarity, if_neg hlt, if_neg ha0]
    rw [hmax]

theorem similarity_bounds (a b : List Char) :
    0 ≤ similarity a b ∧ similarity a b ≤ 1 := by
  by_cases h : a = [] ∧ b = []
  · rw [h.1, h.2, similarity_nil_nil]; norm_num
  · rw [similarity_formula a b h]
    set M := max a.length b.length with hM
    have hM1 : 1 ≤ M := by
      by_contra hc
      push_neg at hc
      interval_cases M
      exact h ⟨List.length_eq_zero.mp (by omega), List.length_eq_zero.mp (by omega)⟩
    have hd : levenshtein a b ≤ M := levenshtein_le_max a b
    have hMQ : (0 : ℚ) < (M : ℚ) := by exact_mod_cast hM1
    constructor
    · apply div_nonneg _ (le_of_lt hMQ)
      have : (levenshtein a b : ℚ) ≤ (M : ℚ) := by exact_mod_cast hd
      linarith
    · rw [div_le_one hMQ]
      have : (0 : ℚ) ≤ (levenshtein a b : ℚ) := by positivity
      linarith

theorem similarity_self_eq_one (s : List Char) (h : s ≠ []) :
    similarity s s = 1 := by
  have h0 : s.length ≠ 0 := fun hc => h (List.length_eq_zero.mp hc)
  rw [similarity_formula s s (fun hc => h hc.1), levenshtein_self]
  have hQ : ((max s.length s.length : ℕ) : ℚ) ≠ 0 := by
    simp only [max_self]
    exact_mod_cast h0
  rw [Nat.cast_zero, sub_zero, div_self hQ]

/-- C5: `similarity(a, b)` equals `(maxLen - editDistance(a, b)) / maxLen`
for inputs that are not both empty, where `editDistance` is the minimum
number of single-character insertions, deletions and substitutions
transforming one string into the other (conjuncts 3 and 4 characterise
`levenshtein a b` as exactly that minimum); `similarity("", "") = 1`;
`similarity` always lies in `[0, 1]`; and `similarity(s, s) = 1` for
every non-empty `s`. -/
theorem similarity_is_normalized_min_edit_distance :
    (∀ a b : List Char, ¬(a = [] ∧ b = []) →
      similarity a b =
        (((max a.length b.length : ℕ) : ℚ) - (levenshtein a b : ℚ)) /
          ((max a.length b.length : ℕ) : ℚ))
    ∧ similarity [] [] = 1
    ∧ (∀ a b : List Char, EditChain (levenshtein a b) a b)
    ∧ (∀ (a b : List Char) (n : ℕ), EditChain n a b → levenshtein a b ≤ n)
    ∧ (∀ a b : List Char, 0 ≤ similarity a b ∧ similarity a b ≤ 1)
    ∧ (∀ s : List Char, s ≠ [] → similarity s s = 1) :=
  ⟨similarity_formula, similarity_nil_nil, editChain_levenshtein,
    fun _ _ _ h => levenshtein_le_editChain h, similarity_bounds,
    similarity_self_eq_one⟩

/-- Closed instantiation of the C5 theorem at concrete inputs. -/
theorem similarity_is_normalized_min_edit_distance_witness :
    similarity ['a', 'b'] ['a'] =
      (((max (['a', 'b'] : List Char).length (['a'] : List Char).length : ℕ) : ℚ) -
        (levenshtein ['a', 'b'] ['a'] : ℚ)) /
        ((max (['a', 'b'] : List Char).length (['a'] : List Char).length : ℕ) : ℚ)
    ∧ similarity ['a'] ['a'] = 1 :=
  ⟨similarity_is_normalized_min_edit_distance.1 ['a', 'b'] ['a'] (by decide),
    similarity_is_normalized_min_edit_distance.2.2.2.2.2 ['a'] (by decide)⟩

/-- Catalog entry as produced by `fetchProducts` (`src/server.js` lines
179-196): string fields plus a numeric price (modelled as a natural). -/
structure Product where
  code : List Char
  name : List Char
  price : ℕ
  stock : List Char
  restock_eta : List Char
  remarks : List Char
deriving DecidableEq, Inhabited

/-- Result shape of the fuzzy search: the JavaScript functions return a
bare product (single match) or a `{ multi: [...] }` object; `null` is
`Option.none` at the use sites. -/
inductive SearchResult where
  | single (p : Product)
  | multi (ps : List Product)
deriving DecidableEq

/-- Final candidate-set resolution of `searchProductFuzzy`
(`src/server.js` lines 238-240): none / the lone element / the first five. -/
def resolveCands (ms : List Product) : Option SearchResult :=
  if ms.length = 0 then none
  else if ms.length = 1 then some (.single ms.headI)
  else some (.multi (ms.take 5))

/-- Exact-code predicate `p.code && p.code.toLowerCase() === k`. -/
def exactPred (k : List Char) (p : Product) : Bool :=
  !p.code.isEmpty && (toLowerL p.code == k)

/-- Substring-tier predicate of `src/server.js` lines 221-224. -/
def subPredV2 (k : List Char) (p : Product) : Bool :=
  (!p.code.isEmpty && containsSub (toLowerL p.code) k) ||
  (!p.name.isEmpty && containsSub (toLowerL p.name) k)

/-- The filler-particle characters removed by `normalizeText`
(`src/server_v3.js` line 124). -/
def particleChars : List Char := ['的', '了', '著', '嗎', '呢', '啊', '喔', '呀', '哦', '耶']

/-- `normalizeText` from `src/server_v3.js` lines 121-127: lower-case,
drop filler particles, drop all whitespace, trim. -/
def normalizeText (s : List Char) : List Char :=
  trimS (((toLowerL s).filter (fun c => !particleChars.contains c)).filter
    (fun c => !isSp c))

/-- Substring-tier predicate of `src/server_v3.js` lines 167-170. -/
def subPredV3 (k : List Char) (p : Product) : Bool :=
  (!p.code.isEmpty && containsSub (toLowerL p.code) k) ||
  containsSub (normalizeText p.name) k

/-- Stable insertion of one scored entry into a descending list: the
inserted entry precedes every already-inserted entry of equal score,
because it came earlier in the original (catalog) order. -/
def insertDesc (x : Product × ℚ) : List (Product × ℚ) → List (Product × ℚ)
  | [] => [x]
  | y :: t => if y.2 ≤ x.2 then x :: y :: t else y :: insertDesc x t

/-- Stable descending sort by score, modelling the (stable) JavaScript
`sort((a, b) => b.score - a.score)`. -/
def sortDesc : List (Product × ℚ) → List (Product × ℚ)
  | [] => []
  | x :: t => insertDesc x (sortDesc t)

namespace V2

/-- `searchProductFuzzy` from `src/server.js` lines 212-241: exact-code
tier, then code/name substring tier, then similarity tier with
threshold 0.6, resolved by `resolveCands`. -/
def searchProductFuzzy (list : List Product) (keyword : List Char) :
    Option SearchResult :=
  let k := toLowerL (trimS keyword)
  if k.isEmpty then none
  else
    match list.find? (exactPred k) with
    | some p => some (.single p)
    | none =>
      let m := list.filter (subPredV2 k)
      let m2 :=
        if m.isEmpty then
          (sortDesc ((list.map (fun p => (p, similarity (toLowerL p.name) k))).filter
            (fun x => (6 : ℚ) / 10 ≤ x.2))).map Prod.fst
        else m
      resolveCands m2

end V2

namespace V3

/-- `searchProductFuzzy` from `src/server_v3.js` lines 158-184: same tiers
as v2 but with `normalizeText` keyword/name normalization and similarity
threshold 0.45. -/
def searchProductFuzzy (list : List Product) (keyword : List Char) :
    Option SearchResult :=
  let k := normalizeText keyword
  if k.isEmpty then none
  else
    match list.find? (exactPred k) with
    | some p => some (.single p)
    | none =>
      let m := list.filter (subPredV3 k)
      let m2 :=
        if m.isEmpty then
          (sortDesc ((list.map (fun p => (p, similarity (normalizeText p.name) k))).filter
            (fun x => (45 : ℚ) / 100 ≤ x.2))).map Prod.fst
        else m
      resolveCands m2

end V3

namespace P0

/-- `searchProductFuzzy` from `src/unnamed/part_000` lines 51-61 and
(identically, up to JavaScript null-guards that are vacuous in this
model) `src/unnamed/part_001` lines 56-66: exact whitespace-stripped
name match, then a name substring tier returned UNTRUNCATED. -/
def searchProductFuzzy (list : List Product) (keyword : List Char) :
    Option SearchResult :=
  if keyword.isEmpty then none
  else
    let normalized := toLowerL (keyword.filter (fun c => !isSp c))
    match list.find? (fun p => toLowerL (p.name.filter (fun c => !isSp c)) == normalized) with
    | some p => some (.single p)
    | none =>
      let partMatches := list.filter (fun p => containsSub (toLowerL p.name) normalized)
      if partMatches.length = 1 then some (.single partMatches.headI)
      else if 1 < partMatches.length then some (.multi partMatches)
      else none

end P0

theorem find?_isSome_of_mem {α : Type} {p : α → Bool} {l : List α} {x : α}
    (hx : x ∈ l) (hpx : p x = true) : ∃ q, l.find? p = some q := by
  induction l with
  | nil => cases hx
  | cons a t ih =>
    by_cases hpa : p a = true
    · exact ⟨a, by simp [List.find?_cons, hpa]⟩
    · rcases List.mem_cons.mp hx with rfl | hxt
      · exact absurd hpx hpa
      · obtain ⟨q, hq⟩ := ih hxt
        exact ⟨q, by simp [List.find?_cons, hpa, hq]⟩

theorem lowerChar_of_sp {c : Char} (h : isSp c = true) : lowerChar c = c := by
  simp only [isSp, Bool.or_eq_true, decide_eq_true_eq] at h
  rcases h with ((((((h | h) | h) | h) | h) | h) | h) | h <;> subst h <;> decide

theorem trimS_eq_nil_of_sp {s : List Char} (h : ∀ c ∈ s, isSp c = true) :
    trimS s = [] := by
  have hR : trimR s = [] := by
    have hd : s.reverse.dropWhile isSp = [] := by
      rw [List.dropWhile_eq_nil_iff]
      intro x hx
      exact h x (List.mem_reverse.mp hx)
    simp [trimR, hd]
  simp [trimS, hR, trimL]

theorem resolveCands_multi {m ps : List Product}
    (h : resolveCands m = some (.multi ps)) :
    2 ≤ ps.length ∧ ps.length ≤ 5 := by
  by_cases h0 : m.length = 0
  · simp [resolveCands, h0] at h
  · by_cases h1 : m.length = 1
    · simp [resolveCands, h0, h1] at h
    · simp only [resolveCands, if_neg h0, if_neg h1, Option.some.injEq,
        SearchResult.multi.injEq] at h
      rw [← h, List.length_take]
      omega

/-- C1: if some catalog entry has a non-empty code whose case-folded form
equals the normalized keyword (and, per the spec's uniqueness contract, it
is the only such entry), `searchProductFuzzy` returns a single match of
that entry — regardless of which other entries' codes or names would
substring-match; the exact-code tier short-circuits all further search.
Stated for both `src/server.js` (V2) and `src/server_v3.js` (V3). -/
theorem exact_code_tier_shortcircuits :
    (∀ (list : List Product) (keyword : List Char) (p : Product),
        p ∈ list → p.code ≠ [] → toLowerL p.code = toLowerL (trimS keyword) →
        (∀ q ∈ list, q.code ≠ [] → toLowerL q.code = toLowerL (trimS keyword) → q = p) →
        V2.searchProductFuzzy list keyword = some (.single p))
    ∧ (∀ (list : List Product) (keyword : List Char) (p : Product),
        p ∈ list → p.code ≠ [] → toLowerL p.code = normalizeText keyword →
        (∀ q ∈ list, q.code ≠ [] → toLowerL q.code = normalizeText keyword → q = p) →
        V3.searchProductFuzzy list keyword = some (.single p)) := by
  constructor
  · intro list keyword p h1 h2 h3 h4
    have hkne : toLowerL (trimS keyword) ≠ [] := by
      rw [← h3]
      simpa [toLowerL] using h2
    have hkE : (toLowerL (trimS keyword)).isEmpty = false := by
      simpa [List.isEmpty_iff] using hkne
    have hpred : exactPred (toLowerL (trimS keyword)) p = true := by
      simp [exactPred, h3, List.isEmpty_iff, h2]
    obtain ⟨q, hq⟩ := find?_isSome_of_mem h1 hpred
    have hpq := List.find?_some hq
    have hmq := List.mem_of_find?_eq_some hq
    have hq2 : q.code ≠ [] ∧ toLowerL q.code = toLowerL (trimS keyword) := by
      simpa [exactPred, List.isEmpty_iff] using hpq
    have hqp : q = p := h4 q hmq hq2.1 hq2.2
    subst hqp
    simp [V2.searchProductFuzzy, hkE, hq]
  · intro list keyword p h1 h2 h3 h4
    have hkne : normalizeText keyword ≠ [] := by
      rw [← h3]
      simpa [toLowerL] using h2
    have hkE : (normalizeText keyword).isEmpty = false := by
      simpa [List.isEmpty_iff] using hkne
    have hpred : exactPred (normalizeText keyword) p = true := by
      simp [exactPred, h3, List.isEmpty_iff, h2]
    obtain ⟨q, hq⟩ := find?_isSome_of_mem h1 hpred
    have hpq := List.find?_some hq
    have hmq := List.mem_of_find?_eq_some hq
    have hq2 : q.code ≠ [] ∧ toLowerL q.code = normalizeText keyword := by
      simpa [exactPred, List.isEmpty_iff] using hpq
    have hqp : q = p := h4 q hmq hq2.1 hq2.2
    subst hqp
    simp [V3.searchProductFuzzy, hkE, hq]

/-- Closed instantiation of the C1 theorem: the entry with code `ab` wins
even though the other entry's name contains the keyword. -/
theorem exact_code_tier_shortcircuits_witness :
    V2.searchProductFuzzy
        [⟨['a', 'b'], ['x'], 0, [], [], []⟩, ⟨[], ['z', 'a', 'b'], 0, [], [], []⟩]
        ['A', 'b'] =
      some (.single ⟨['a', 'b'], ['x'], 0, [], [], []⟩)
    ∧ V3.searchProductFuzzy
        [⟨['a', 'b'], ['x'], 0, [], [], []⟩, ⟨[], ['z', 'a', 'b'], 0, [], [], []⟩]
        ['A', 'b'] =
      some (.single ⟨['a', 'b'], ['x'], 0, [], [], []⟩) :=
  ⟨exact_code_tier_shortcircuits.1 _ ['A', 'b'] _ (by decide) (by decide) (by decide)
      (by decide),
    exact_code_tier_shortcircuits.2 _ ['A', 'b'] _ (by decide) (by decide) (by decide)
      (by decide)⟩

/-- C2 as stated is false: the premise only requires some entry's code or
name to contain the keyword, but an exact-code hit preempts the substring
tier. Concretely, with entries `{code:"ab"}` and `{name:"zabz"}` and
keyword `"ab"`, both entries substring-match (so the claimed outcome is
the two-element multi-match of the substring candidate set), yet the
function returns the single exact-code match. -/
theorem substring_tier_counterexample :
    (∃ p ∈ ([⟨['a', 'b'], ['x'], 0, [], [], []⟩,
              ⟨[], ['z', 'a', 'b', 'z'], 0, [], [], []⟩] : List Product),
        subPredV2 (toLowerL (trimS ['a', 'b'])) p = true)
    ∧ V2.searchProductFuzzy
        [⟨['a', 'b'], ['x'], 0, [], [], []⟩, ⟨[], ['z', 'a', 'b', 'z'], 0, [], [], []⟩]
        ['a', 'b'] ≠
      resolveCands
        (List.filter (subPredV2 (toLowerL (trimS ['a', 'b'])))
          [⟨['a', 'b'], ['x'], 0, [], [], []⟩, ⟨[], ['z', 'a', 'b', 'z'], 0, [], [], []⟩]) := by
  decide

/-- C2 amended: provided additionally that no entry scores an exact-code
hit, if at least one entry's case-folded code or normalized name contains
the non-empty normalized keyword as a substring, the similarity tier is
never consulted: the outcome is exactly the resolution of the
substring-tier candidate set, kept in original catalog order. Stated for
both `src/server.js` (V2) and `src/server_v3.js` (V3). -/
theorem substring_tier_determines_outcome :
    (∀ (list : List Product) (keyword : List Char),
        toLowerL (trimS keyword) ≠ [] →
        (∀ p ∈ list, exactPred (toLowerL (trimS keyword)) p = false) →
        (∃ p ∈ list, subPredV2 (toLowerL (trimS keyword)) p = true) →
        V2.searchProductFuzzy list keyword =
          resolveCands (list.filter (subPredV2 (toLowerL (trimS keyword)))))
    ∧ (∀ (list : List Product) (keyword : List Char),
        normalizeText keyword ≠ [] →
        (∀ p ∈ list, exactPred (normalizeText keyword) p = false) →
        (∃ p ∈ list, subPredV3 (normalizeText keyword) p = true) →
        V3.searchProductFuzzy list keyword =
          resolveCands (list.filter (subPredV3 (normalizeText keyword)))) := by
  constructor
  · intro list keyword hk hex hsome
    have hkE : (toLowerL (trimS keyword)).isEmpty = false := by
      simpa [List.isEmpty_iff] using hk
    have hfind : list.find? (exactPred (toLowerL (trimS keyword))) = none := by
      rw [List.find?_eq_none]
      intro x hx
      simp [hex x hx]
    have hfe : (list.filter (subPredV2 (toLowerL (trimS keyword)))).isEmpty = false := by
      obtain ⟨p, hp, hsub⟩ := hsome
      have hm : p ∈ list.filter (subPredV2 (toLowerL (trimS keyword))) :=
        List.mem_filter.mpr ⟨hp, hsub⟩
      simpa [List.isEmpty_iff] using List.ne_nil_of_mem hm
    simp [V2.searchProductFuzzy, hkE, hfind, hfe]
  · intro list keyword hk hex hsome
    have hkE : (normalizeText keyword).isEmpty = false := by
      simpa [List.isEmpty_iff] using hk
    have hfind : list.find? (exactPred (normalizeText keyword)) = none := by
      rw [List.find?_eq_none]
      intro x hx
      simp [hex x hx]
    have hfe : (list.filter (subPredV3 (normalizeText keyword))).isEmpty = false := by
      obtain ⟨p, hp, hsub⟩ := hsome
      have hm : p ∈ list.filter (subPredV3 (normalizeText keyword)) :=
        List.mem_filter.mpr ⟨hp, hsub⟩
      simpa [List.isEmpty_iff] using List.ne_nil_of_mem hm
    simp [V3.searchProductFuzzy, hkE, hfind, hfe]

/-- Closed instantiation of the amended C2 theorem. -/
theorem substring_tier_determines_outcome_witness :
    V2.searchProductFuzzy [⟨[], ['z', 'a', 'b'], 0, [], [], []⟩] ['a', 'b'] =
      resolveCands
        (List.filter (subPredV2 (toLowerL (trimS ['a', 'b'])))
          [⟨[], ['z', 'a', 'b'], 0, [], [], []⟩])
    ∧ V3.searchProductFuzzy [⟨[], ['z', 'a', 'b'], 0, [], [], []⟩] ['a', 'b'] =
      resolveCands
        (List.filter (subPredV3 (normalizeText ['a', 'b']))
          [⟨[], ['z', 'a', 'b'], 0, [], [], []⟩]) :=
  ⟨substring_tier_determines_outcome.1 _ ['a', 'b'] (by decide) (by decide)
      ⟨⟨[], ['z', 'a', 'b'], 0, [], [], []⟩, by decide, by decide⟩,
    substring_tier_determines_outcome.2 _ ['a', 'b'] (by decide) (by decide)
      ⟨⟨[], ['z', 'a', 'b'], 0, [], [], []⟩, by decide, by decide⟩⟩

/-- C3 as stated is false for the `searchProductFuzzy` of
`src/unnamed/part_000` (lines 56-61), which returns the substring
candidate set untruncated: six entries whose names all contain `a` yield
a six-element multi-match. -/
theorem multiMatch_cap_counterexample :
    ∃ ps : List Product,
      P0.searchProductFuzzy
          [⟨[], ['a', '1'], 0, [], [], []⟩, ⟨[], ['a', '2'], 0, [], [], []⟩,
           ⟨[], ['a', '3'], 0, [], [], []⟩, ⟨[], ['a', '4'], 0, [], [], []⟩,
           ⟨[], ['a', '5'], 0, [], [], []⟩, ⟨[], ['a', '6'], 0, [], [], []⟩]
          ['a'] = some (.multi ps)
      ∧ 5 < ps.length :=
  ⟨[⟨[], ['a', '1'], 0, [], [], []⟩, ⟨[], ['a', '2'], 0, [], [], []⟩,
    ⟨[], ['a', '3'], 0, [], [], []⟩, ⟨[], ['a', '4'], 0, [], [], []⟩,
    ⟨[], ['a', '5'], 0, [], [], []⟩, ⟨[], ['a', '6'], 0, [], [], []⟩], by decide⟩

/-- C3 amended: every multi-match returned by `searchProductFuzzy` of
`src/server.js` (V2) or `src/server_v3.js` (V3) has between 2 and 5
products; the variant in `src/unnamed/part_000` / `part_001` (P0)
guarantees only the lower bound of 2 — its candidate list is not capped
at 5. -/
theorem multiMatch_size_policy :
    (∀ (list : List Product) (kw : List Char) (ps : List Product),
        V2.searchProductFuzzy list kw = some (.multi ps) →
        2 ≤ ps.length ∧ ps.length ≤ 5)
    ∧ (∀ (list : List Product) (kw : List Char) (ps : List Product),
        V3.searchProductFuzzy list kw = some (.multi ps) →
        2 ≤ ps.length ∧ ps.length ≤ 5)
    ∧ (∀ (list : List Product) (kw : List Char) (ps : List Product),
        P0.searchProductFuzzy list kw = some (.multi ps) → 2 ≤ ps.length) := by
  refine ⟨?_, ?_, ?_⟩
  · intro list kw ps h
    by_cases hk : (toLowerL (trimS kw)).isEmpty = true
    · simp [V2.searchProductFuzzy, hk] at h
    · have hk' : (toLowerL (trimS kw)).isEmpty = false := by simpa using hk
      rcases hf : list.find? (exactPred (toLowerL (trimS kw))) with _ | q
      · simp only [V2.searchProductFuzzy, hk', hf, Bool.false_eq_true, if_false] at h
        exact resolveCands_multi h
      · simp [V2.searchProductFuzzy, hk', hf] at h
  · intro list kw ps h
    by_cases hk : (normalizeText kw).isEmpty = true
    · simp [V3.searchProductFuzzy, hk] at h
    · have hk' : (normalizeText kw).isEmpty = false := by simpa using hk
      rcases hf : list.find? (exactPred (normalizeText kw)) with _ | q
      · simp only [V3.searchProductFuzzy, hk', hf, Bool.false_eq_true, if_false] at h
        exact resolveCands_multi h
      · simp [V3.searchProductFuzzy, hk', hf] at h
  · intro list kw ps h
    by_cases hk : kw.isEmpty = true
    · simp [P0.searchProductFuzzy, hk] at h
    · have hk' : kw.isEmpty = false := by simpa using hk
      rcases hf : list.find?
          (fun p => toLowerL (p.name.filter (fun c => !isSp c)) ==
            toLowerL (kw.filter (fun c => !isSp c))) with _ | q
      · simp only [P0.searchProductFuzzy, hk', hf, Bool.false_eq_true, if_false] at h
        by_cases h1 : (list.filter (fun p =>
            containsSub (toLowerL p.name) (toLowerL (kw.filter (fun c => !isSp c))))).length = 1
        · simp [h1] at h
        · by_cases h2 : 1 < (list.filter (fun p =>
              containsSub (toLowerL p.name) (toLowerL (kw.filter (fun c => !isSp c))))).length
          · simp only [if_neg h1, if_pos h2, Option.some.injEq,
              SearchResult.multi.injEq] at h
            rw [← h]
            omega
          · simp [h1, h2] at h
      · simp [P0.searchProductFuzzy, hk', hf] at h

/-- Closed instantiation of the amended C3 theorem. -/
theorem multiMatch_size_policy_witness :
    2 ≤ ([⟨[], ['x', 'a', 'b'], 0, [], [], []⟩,
          ⟨[], ['a', 'b', 'y'], 0, [], [], []⟩] : List Product).length
    ∧ ([⟨[], ['x', 'a', 'b'], 0, [], [], []⟩,
        ⟨[], ['a', 'b', 'y'], 0, [], [], []⟩] : List Product).length ≤ 5 :=
  multiMatch_size_policy.1
    [⟨[], ['x', 'a', 'b'], 0, [], [], []⟩, ⟨[], ['a', 'b', 'y'], 0, [], [], []⟩]
    ['a', 'b']
    [⟨[], ['x', 'a', 'b'], 0, [], [], []⟩, ⟨[], ['a', 'b', 'y'], 0, [], [], []⟩]
    (by decide)

/-- C4: resolving an empty or whitespace-only keyword yields no match,
for every catalog: the normalized keyword is empty, so the guard fires
before any tier and the result does not depend on the catalog. Stated
for both `src/server.js` (V2) and `src/server_v3.js` (V3). -/
theorem empty_keyword_yields_noMatch :
    ∀ (list : List Product) (kw : List Char), (∀ c ∈ kw, isSp c = true) →
      V2.searchProductFuzzy list kw = none ∧ V3.searchProductFuzzy list kw = none := by
  intro list kw h
  have htrim : trimS kw = [] := trimS_eq_nil_of_sp h
  constructor
  · have hkE : (toLowerL (trimS kw)).isEmpty = true := by
      rw [htrim]
      rfl
    simp [V2.searchProductFuzzy, hkE]
  · have hnorm : normalizeText kw = [] := by
      have hfe : ((toLowerL kw).filter (fun c => !particleChars.contains c)).filter
          (fun c => !isSp c) = [] := by
        rw [List.filter_eq_nil_iff]
        intro a ha
        have ha1 : a ∈ (toLowerL kw).filter (fun c => !particleChars.contains c) := ha
        have ha2 : a ∈ toLowerL kw := List.mem_of_mem_filter ha1
        obtain ⟨c, hc, hac⟩ := List.mem_map.mp ha2
        have hsp : isSp a = true := by
          rw [← hac, lowerChar_of_sp (h c hc)]
          exact h c hc
        simp [hsp]
      unfold normalizeText
      rw [hfe]
      rfl
    have hkE : (normalizeText kw).isEmpty = true := by
      rw [hnorm]
      rfl
    simp [V3.searchProductFuzzy, hkE]

/-- Closed instantiation of the C4 theorem at a whitespace-only keyword. -/
theorem empty_keyword_yields_noMatch_witness :
    V2.searchProductFuzzy [⟨['a'], ['b'], 0, [], [], []⟩] [' ', ' '] = none
    ∧ V3.searchProductFuzzy [⟨['a'], ['b'], 0, [], [], []⟩] [' ', ' '] = none :=
  empty_keyword_yields_noMatch [⟨['a'], ['b'], 0, [], [], []⟩] [' ', ' '] (by decide)

/-- `chunkMessage` from `src/server.js` lines 310-318 (equivalently the
`for`-loop version in `src/server_v3.js` lines 296-300): slice the string
into consecutive pieces of `size` characters.  The JavaScript loop never
terminates for `size = 0`; the model returns `[]` in that (never
exercised) case, and the claim only concerns positive sizes. -/
def chunkMessage (s : List Char) (size : ℕ) : List (List Char) :=
  if h : s = [] ∨ size = 0 then []
  else s.take size :: chunkMessage (s.drop size) size
termination_by s.length
decreasing_by
  push_neg at h
  have h1 : 0 < s.length := List.length_pos.mpr h.1
  simp only [List.length_drop]
  omega

/-- C9: for every string and positive chunk size, every chunk has length
at most `size` and concatenating the chunks in order re-yields exactly
the input string. -/
theorem chunkMessage_reassembles :
    ∀ (s : List Char) (size : ℕ), 0 < size →
      (∀ c ∈ chunkMessage s size, c.length ≤ size) ∧
      (chunkMessage s size).flatten = s := by
  intro s size hsz
  have key : ∀ (n : ℕ) (s : List Char), s.length ≤ n →
      (∀ c ∈ chunkMessage s size, c.length ≤ size) ∧
      (chunkMessage s size).flatten = s := by
    intro n
    induction n with
    | zero =>
      intro s h
      have hs : s = [] := by cases s <;> simp_all
      subst hs
      unfold chunkMessage
      rw [dif_pos (Or.inl rfl)]
      simp
    | succ n ih =>
      intro s h
      by_cases hs : s = []
      · subst hs
        unfold chunkMessage
        rw [dif_pos (Or.inl rfl)]
        simp
      · have hcond : ¬(s = [] ∨ size = 0) := by
          push_neg
          exact ⟨hs, by omega⟩
        have hlen : (s.drop size).length ≤ n := by
          have h1 : 0 < s.length := List.length_pos.mpr hs
          simp only [List.length_drop]
          omega
        obtain ⟨ih1, ih2⟩ := ih (s.drop size) hlen
        rw [chunkMessage.eq_1, dif_neg hcond]
        constructor
        · intro c hc
          rcases List.mem_cons.mp hc with rfl | hc'
          · rw [List.length_take]; omega
          · exact ih1 c hc'
        · simp only [List.flatten_cons, ih2, List.take_append_drop]
  exact key s.length s le_rfl

/-- Closed instantiation of the C9 theorem. -/
theorem chunkMessage_reassembles_witness :
    (∀ c ∈ chunkMessage ['a', 'b', 'c'] 2, c.length ≤ 2) ∧
    (chunkMessage ['a', 'b', 'c'] 2).flatten = ['a', 'b', 'c'] :=
  chunkMessage_reassembles ['a', 'b', 'c'] 2 (by decide)

/-- First matching alternative among `ws` at the current position,
returning the remainder after the matched word (one alternation attempt
of the intent-word regex).  The `!w.isEmpty` conjunct is vacuously true
for the concrete word lists used below. -/
def tryWords (ws : List (List Char)) (l : List Char) : Option (List Char) :=
  match ws with
  | [] => none
  | w :: rest =>
    if w.isPrefixOf l && !w.isEmpty then some (l.drop w.length)
    else tryWords rest l

theorem tryWords_length {ws : List (List Char)} {l r : List Char}
    (h : tryWords ws l = some r) : r.length < l.length := by
  induction ws with
  | nil => simp [tryWords] at h
  | cons w rest ih =>
    simp only [tryWords] at h
    by_cases hc : (w.isPrefixOf l && !w.isEmpty) = true
    · rw [if_pos hc] at h
      simp only [Bool.and_eq_true] at hc
      obtain ⟨h1, h2⟩ := hc
      have hpre : w <+: l := List.isPrefixOf_iff_prefix.mp h1
      have hle : w.length ≤ l.length := hpre.length_le
      have hne : w ≠ [] := by
        intro hw
        rw [hw] at h2
        simp at h2
      have hw1 : 0 < w.length := List.length_pos.mpr hne
      have hr : r = l.drop w.length := (Option.some.injEq _ _ ▸ h).symm
      rw [hr, List.length_drop]
      omega
    · rw [if_neg hc] at h
      exact ih h

/-- One pass of the global regex replace `(^|\s)(w₁|w₂|…) → " "` used by
`splitKeywords` (`src/server.js` lines 106-108): `start` is true exactly
at position 0, where the alternation first tries the zero-width `^`
(an intent word at position 0) and then falls back to the `\s`
alternative (a whitespace character at position 0 followed by an intent
word); at every later position only the `\s` alternative applies.  A
matched whitespace character is consumed together with the word and
replaced by one space; scanning resumes after the replacement.  The fuel
argument (instantiated with the input length, which strictly dominates
every recursive call) makes the recursion structural so the function
evaluates by kernel reduction. -/
def stripGoAux (ws : List (List Char)) : ℕ → Bool → List Char → List Char
  | 0, _, l => l
  | n + 1, true, l =>
    (match tryWords ws l with
     | some rest => ' ' :: stripGoAux ws n false rest
     | none =>
       match l with
       | [] => []
       | c :: r =>
         if isSp c then
           match tryWords ws r with
           | some rest => ' ' :: stripGoAux ws n false rest
           | none => c :: stripGoAux ws n false r
         else c :: stripGoAux ws n false r)
  | n + 1, false, l =>
    (match l with
     | [] => []
     | c :: r =>
       if isSp c then
         match tryWords ws r with
         | some rest => ' ' :: stripGoAux ws n false rest
         | none => c :: stripGoAux ws n false r
       else c :: stripGoAux ws n false r)

/-- Global intent-word replace, entry point. -/
def stripGo (ws : List (List Char)) (atStart : Bool) (l : List Char) : List Char :=
  stripGoAux ws l.length atStart l

/-- The first replace's word alternatives (`查價|報價|多少錢`). -/
def intentWords1 : List (List Char) := [['查', '價'], ['報', '價'], ['多', '少', '錢']]

/-- The second replace's word alternatives (`庫存|有貨嗎|有沒有庫存`). -/
def intentWords2 : List (List Char) :=
  [['庫', '存'], ['有', '貨', '嗎'], ['有', '沒', '有', '庫', '存']]

/-- The `cleaned` value of `splitKeywords` (`src/server.js` lines
106-109): both global intent-word replaces, then trim. -/
def cleanedText (text : List Char) : List Char :=
  trimS (stripGo intentWords2 true (stripGo intentWords1 true text))

/-- JavaScript `split` on a single-character separator class: empty
segments are produced between adjacent separators and kept. -/
def jsSplit (p : Char → Bool) : List Char → List (List Char)
  | [] => [[]]
  | c :: r =>
    if p c then [] :: jsSplit p r
    else
      match jsSplit p r with
      | [] => [[c]]
      | s :: ss => (c :: s) :: ss

/-- The separator class `/\n|、|,|，|；|;/` of `splitKeywords`
(`src/server.js` line 111). -/
def isSepChar (c : Char) : Bool :=
  c = '\n' || c = '、' || c = ',' || c = '，' || c = '；' || c = ';'

/-- `splitKeywords` from `src/server.js` lines 104-115: strip intent
words, trim, split on the separator class, trim each segment, drop the
empty segments. -/
def splitKeywords (text : List Char) : List (List Char) :=
  ((jsSplit isSepChar (cleanedText text)).map trimS).filter (fun s => !s.isEmpty)

/-- Maximal runs of non-separator characters, the spec-side reading of
"the segments obtained by splitting on the separator class". -/
def nonSepRuns (p : Char → Bool) : List Char → List (List Char)
  | [] => []
  | c :: r =>
    if p c then nonSepRuns p r
    else (c :: r.takeWhile (fun x => !p x)) :: nonSepRuns p (r.dropWhile (fun x => !p x))
termination_by l => l.length
decreasing_by
  · simp
  · simp only [List.length_cons]
    exact Nat.lt_succ_of_le (List.dropWhile_sublist _).length_le

theorem jsSplit_eq (p : Char → Bool) : ∀ l : List Char,
    jsSplit p l = l.takeWhile (fun c => !p c) ::
      (match l.dropWhile (fun c => !p c) with
       | [] => []
       | _ :: r => jsSplit p r) := by
  intro l
  induction l with
  | nil => simp [jsSplit]
  | cons c r ih =>
    by_cases hc : p c = true
    · simp [jsSplit, hc, List.takeWhile_cons, List.dropWhile_cons]
    · have hcf : p c = false := by simpa using hc
      simp only [jsSplit, hcf, Bool.false_eq_true, if_false, ih,
        List.takeWhile_cons, List.dropWhile_cons, Bool.not_false, if_true]

theorem dropWhile_head_false {p : Char → Bool} :
    ∀ {l : List Char} {d : Char} {r : List Char},
      l.dropWhile p = d :: r → p d = false := by
  intro l
  induction l with
  | nil => intro d r h; simp [List.dropWhile] at h
  | cons c t ih =>
    intro d r h
    by_cases hc : p c = true
    · rw [List.dropWhile_cons, if_pos hc] at h
      exact ih h
    · rw [List.dropWhile_cons, if_neg hc] at h
      injection h with h1 h2
      subst h1
      simpa using hc

theorem trimS_nil : trimS [] = [] := rfl

theorem filtered_jsSplit_eq_runs (p : Char → Bool) : ∀ l : List Char,
    ((jsSplit p l).map trimS).filter (fun s => !s.isEmpty) =
      ((nonSepRuns p l).map trimS).filter (fun s => !s.isEmpty) := by
  have key : ∀ (n : ℕ) (l : List Char), l.length ≤ n →
      ((jsSplit p l).map trimS).filter (fun s => !s.isEmpty) =
        ((nonSepRuns p l).map trimS).filter (fun s => !s.isEmpty) := by
    intro n
    induction n with
    | zero =>
      intro l h
      have hl : l = [] := by cases l <;> simp_all
      subst hl
      simp [jsSplit, nonSepRuns, trimS_nil]
    | succ n ih =>
      intro l h
      cases l with
      | nil => simp [jsSplit, nonSepRuns, trimS_nil]
      | cons c r =>
        simp only [List.length_cons] at h
        by_cases hc : p c = true
        · rw [jsSplit, if_pos hc, nonSepRuns, if_pos hc]
          simp only [List.map_cons, List.filter_cons, trimS_nil]
          simpa using ih r (by omega)
        · have hcf : p c = false := by simpa using hc
          rw [jsSplit_eq p (c :: r), nonSepRuns, if_neg hc]
          simp only [List.takeWhile_cons, List.dropWhile_cons, hcf,
            Bool.false_eq_true, Bool.not_false, if_true, if_false]
          rcases hdw : r.dropWhile (fun x => !p x) with _ | ⟨d, r'⟩
          · simp [nonSepRuns]
          · have hd : p d = true := by
              have := dropWhile_head_false (p := fun x => !p x) hdw
              simpa using this
            have hr' : r'.length ≤ n := by
              have h1 : (r.dropWhile (fun x => !p x)).length ≤ r.length :=
                (List.dropWhile_sublist _).length_le
              rw [hdw] at h1
              simp only [List.length_cons] at h1
              omega
            rw [nonSepRuns, if_pos hd]
            simp only [List.map_cons, List.filter_cons]
            rw [ih r' hr']
  intro l
  exact key l.length l le_rfl

theorem nonSepRuns_mem {p : Char → Bool} : ∀ {l seg : List Char} {c : Char},
    seg ∈ nonSepRuns p l → c ∈ seg → c ∈ l ∧ p c = false := by
  have key : ∀ (n : ℕ) (l seg : List Char) (c : Char), l.length ≤ n →
      seg ∈ nonSepRuns p l → c ∈ seg → c ∈ l ∧ p c = false := by
    intro n
    induction n with
    | zero =>
      intro l seg c h hseg _
      have hl : l = [] := by cases l <;> simp_all
      subst hl
      simp [nonSepRuns] at hseg
    | succ n ih =>
      intro l seg c h hseg hc
      cases l with
      | nil => simp [nonSepRuns] at hseg
      | cons a r =>
        simp only [List.length_cons] at h
        by_cases ha : p a = true
        · rw [nonSepRuns, if_pos ha] at hseg
          obtain ⟨h1, h2⟩ := ih r seg c (by omega) hseg hc
          exact ⟨List.mem_cons_of_mem a h1, h2⟩
        · have haf : p a = false := by simpa using ha
          rw [nonSepRuns, if_neg ha] at hseg
          rcases List.mem_cons.mp hseg with rfl | hseg'
          · rcases List.mem_cons.mp hc with rfl | hc'
            · exact ⟨List.mem_cons_self _ _, haf⟩
            · have h1 : c ∈ r := (List.takeWhile_sublist _).subset hc'
              have h2 := List.mem_takeWhile_imp hc'
              refine ⟨List.mem_cons_of_mem a h1, by simpa using h2⟩
          · have hlen : (r.dropWhile (fun x => !p x)).length ≤ n := by
              have h4 : (r.dropWhile (fun x => !p x)).length ≤ r.length :=
                (List.dropWhile_sublist _).length_le
              omega
            obtain ⟨h1, h2⟩ := ih _ seg c hlen hseg' hc
            have h3 : c ∈ r := (List.dropWhile_sublist _).subset h1
            exact ⟨List.mem_cons_of_mem a h3, h2⟩
  intro l seg c hseg hc
  exact key l.length l seg c le_rfl hseg hc

/-- Modelled from the spec claim: the segments produced by splitting the
intent-stripped text on the CLAIMED separator class, which additionally
includes whitespace runs (trimmed, empty segments dropped). -/
def claimedSegments (text : List Char) : List (List Char) :=
  ((jsSplit (fun c => isSepChar c || isSp c) (cleanedText text)).map trimS).filter
    (fun s => !s.isEmpty)

/-- C7 as stated is false: `splitKeywords` of `src/server.js` does not
split on whitespace runs.  On the raw text `"a b"` (no intent words) it
returns the single segment `"a b"`, while splitting on the claimed
separator class (which includes whitespace) would return `"a"`, `"b"`. -/
theorem splitKeywords_counterexample :
    splitKeywords ['a', ' ', 'b'] = [['a', ' ', 'b']]
    ∧ claimedSegments ['a', ' ', 'b'] = [['a'], ['b']]
    ∧ splitKeywords ['a', ' ', 'b'] ≠ claimedSegments ['a', ' ', 'b'] := by
  decide

/-- C7 amended: for every raw text, `splitKeywords` returns exactly the
sequence (order preserved, duplicates preserved) of non-empty trimmed
segments — the maximal runs of non-separator characters — obtained by
splitting the intent-stripped trimmed text on the separator class
newline, ideographic comma, ASCII and full-width comma, ASCII and
full-width semicolon (whitespace is NOT a separator); an input whose
cleaned form consists only of separators and whitespace yields the empty
sequence. -/
theorem splitKeywords_segments :
    (∀ text : List Char,
        splitKeywords text =
          ((nonSepRuns isSepChar (cleanedText text)).map trimS).filter
            (fun s => !s.isEmpty))
    ∧ (∀ text : List Char,
        (∀ c ∈ cleanedText text, isSepChar c = true ∨ isSp c = true) →
        splitKeywords text = []) := by
  have main : ∀ text : List Char,
      splitKeywords text =
        ((nonSepRuns isSepChar (cleanedText text)).map trimS).filter
          (fun s => !s.isEmpty) := by
    intro text
    exact filtered_jsSplit_eq_runs isSepChar (cleanedText text)
  refine ⟨main, ?_⟩
  intro text hall
  rw [main text]
  rw [List.filter_eq_nil_iff]
  intro seg hseg
  obtain ⟨run, hrun, hrunseg⟩ := List.mem_map.mp hseg
  have hempty : trimS run = [] := by
    apply trimS_eq_nil_of_sp
    intro c hc
    obtain ⟨hmem, hnotsep⟩ := nonSepRuns_mem hrun hc
    rcases hall c hmem with hsep | hsp
    · rw [hsep] at hnotsep; cases hnotsep
    · exact hsp
  rw [← hrunseg, hempty]
  simp

/-- Closed instantiation of the amended C7 theorem. -/
theorem splitKeywords_segments_witness :
    splitKeywords ['a', '、', 'b'] =
      ((nonSepRuns isSepChar (cleanedText ['a', '、', 'b'])).map trimS).filter
        (fun s => !s.isEmpty)
    ∧ splitKeywords ['、', ' '] = [] :=
  ⟨splitKeywords_segments.1 ['a', '、', 'b'],
    splitKeywords_segments.2 ['、', ' '] (by decide)⟩

/-- `Array.prototype.join(sep)` on the model strings. -/
def joinSep (sep : List Char) : List (List Char) → List Char
  | [] => []
  | [s] => s
  | s :: rest => s ++ sep ++ joinSep sep rest

namespace P0

/-- One `${code} ${name}` output line of `replyCodeOnly`. -/
def codeLine (p : Product) : List Char := p.code ++ [' '] ++ p.name

/-- The per-keyword result lines of `replyCodeOnly`
(`src/unnamed/part_001` lines 97-112; identical logic in `part_000`
lines 93-111): unmatched keywords are skipped, a multi-match contributes
its first candidate's line, a single match its own line, in keyword
order. -/
def codeLines (list : List Product) (kws : List (List Char)) : List (List Char) :=
  kws.filterMap fun k =>
    match searchProductFuzzy list k with
    | none => none
    | some (.single p) => some (codeLine p)
    | some (.multi ps) => some (codeLine ps.headI)

/-- The not-found reply `找不到符合的品項。`. -/
def notFoundMsg : List Char := ['找', '不', '到', '符', '合', '的', '品', '項', '。']

/-- The reply text of `replyCodeOnly`: the not-found message when no
keyword produced a line, otherwise the lines joined by newlines. -/
def replyCodeOnlyText (list : List Product) (kws : List (List Char)) : List Char :=
  if (codeLines list kws).length = 0 then notFoundMsg
  else joinSep ['\n'] (codeLines list kws)

end P0

theorem codeLines_mem {list : List Product} {kws : List (List Char)}
    {line : List Char} (h : line ∈ P0.codeLines list kws) :
    ∃ p, line = P0.codeLine p := by
  obtain ⟨k, _, hf⟩ := List.mem_filterMap.mp h
  rcases hres : P0.searchProductFuzzy list k with _ | r
  · rw [hres] at hf; simp at hf
  · cases r with
    | single p =>
      rw [hres] at hf
      simp only [Option.some.injEq] at hf
      exact ⟨p, hf.symm⟩
    | multi ps =>
      rw [hres] at hf
      simp only [Option.some.injEq] at hf
      exact ⟨ps.headI, hf.symm⟩

theorem space_mem_joinSep {lines : List (List Char)} {l : List Char}
    (hl : l ∈ lines) {c : Char} (hc : c ∈ l) :
    c ∈ joinSep ['\n'] lines := by
  induction lines with
  | nil => cases hl
  | cons s rest ih =>
    rcases List.mem_cons.mp hl with rfl | hl'
    · cases rest with
      | nil => exact hc
      | cons r t =>
        show c ∈ l ++ ['\n'] ++ joinSep ['\n'] (r :: t)
        exact List.mem_append.mpr (Or.inl (List.mem_append.mpr (Or.inl hc)))
    · cases rest with
      | nil => cases hl'
      | cons r t =>
        show c ∈ s ++ ['\n'] ++ joinSep ['\n'] (r :: t)
        exact List.mem_append.mpr (Or.inr (ih hl'))

/-- C10: in the batch code-lookup `replyCodeOnly`, a keyword resolving to
no match contributes no output line (it is skipped, not reported); a
keyword resolving to a multi-match contributes exactly one line, for its
first candidate only; and the single not-found reply is produced exactly
when every keyword fails to match (a matched keyword always contributes
a line containing a space, which the not-found message never contains). -/
theorem replyCodeOnly_policy :
    ∀ (list : List Product) (kws : List (List Char)),
      (∀ (k : List Char) (t : List (List Char)),
          P0.searchProductFuzzy list k = none →
          P0.codeLines list (k :: t) = P0.codeLines list t)
      ∧ (∀ (k : List Char) (t : List (List Char)) (p : Product) (ps : List Product),
          P0.searchProductFuzzy list k = some (.multi (p :: ps)) →
          P0.codeLines list (k :: t) = P0.codeLine p :: P0.codeLines list t)
      ∧ (P0.codeLines list kws = [] ↔
          ∀ k ∈ kws, P0.searchProductFuzzy list k = none)
      ∧ (P0.replyCodeOnlyText list kws = P0.notFoundMsg ↔
          ∀ k ∈ kws, P0.searchProductFuzzy list k = none) := by
  intro list kws
  have empty_iff : P0.codeLines list kws = [] ↔
      ∀ k ∈ kws, P0.searchProductFuzzy list k = none := by
    rw [P0.codeLines, List.filterMap_eq_nil_iff]
    constructor
    · intro h k hk
      have hf := h k hk
      rcases hres : P0.searchProductFuzzy list k with _ | r
      · rfl
      · cases r <;> rw [hres] at hf <;> simp at hf
    · intro h k hk
      rw [h k hk]
  refine ⟨?_, ?_, empty_iff, ?_⟩
  · intro k t h
    simp [P0.codeLines, List.filterMap_cons, h]
  · intro k t p ps h
    simp [P0.codeLines, List.filterMap_cons, h, List.headI]
  · constructor
    · intro h
      by_cases hlen : (P0.codeLines list kws).length = 0
      · exact empty_iff.mp (List.length_eq_zero.mp hlen)
      · exfalso
        rw [P0.replyCodeOnlyText, if_neg hlen] at h
        rcases hcl : P0.codeLines list kws with _ | ⟨l1, rest⟩
        · rw [hcl] at hlen; simp at hlen
        · obtain ⟨p, hp⟩ := codeLines_mem (hcl ▸ List.mem_cons_self l1 rest)
          have hsp : ' ' ∈ l1 := by
            rw [hp]
            simp [P0.codeLine]
          have hmem : ' ' ∈ joinSep ['\n'] (P0.codeLines list kws) :=
            space_mem_joinSep (hcl ▸ List.mem_cons_self l1 rest) hsp
          rw [h] at hmem
          revert hmem
          decide
    · intro h
      have he : P0.codeLines list kws = [] := empty_iff.mpr h
      rw [P0.replyCodeOnlyText, he]
      rfl

/-- Closed instantiation of the C10 theorem: an unmatched keyword is
dropped from the output lines. -/
theorem replyCodeOnly_policy_witness :
    P0.codeLines [⟨['c'], ['a'], 0, [], [], []⟩] [['z'], ['a']] =
      P0.codeLines [⟨['c'], ['a'], 0, [], [], []⟩] [['a']] :=
  (replyCodeOnly_policy [⟨['c'], ['a'], 0, [], [], []⟩] [['z'], ['a']]).1
    ['z'] [['a']] (by decide)

/-- Decimal digit character. -/
def digitChar (d : ℕ) : Char :=
  match d with
  | 0 => '0' | 1 => '1' | 2 => '2' | 3 => '3' | 4 => '4'
  | 5 => '5' | 6 => '6' | 7 => '7' | 8 => '8' | 9 => '9'
  | _ => '*'

/-- Decimal rendering of a natural number (template interpolation
`${n}` for a non-negative JavaScript number). -/
def natChars (n : ℕ) : List Char :=
  if h : n < 10 then [digitChar n]
  else natChars (n / 10) ++ [digitChar (n % 10)]
termination_by n
decreasing_by
  push_neg at h
  exact Nat.div_lt_self (by omega) (by omega)

/-- Decimal rendering of an integer (template interpolation `${n}`). -/
def intChars (i : ℤ) : List Char :=
  if i < 0 then '-' :: natChars i.natAbs else natChars i.toNat

/-- Numeric value of a digit string. -/
def digitsVal (s : List Char) : ℕ :=
  s.foldl (fun acc c => acc * 10 + (c.toNat - '0'.toNat)) 0

/-- Model of JavaScript `Number(s)` restricted to the shapes that decide
`normalizeStockText`'s branches: the empty string parses to 0, an
optional-sign decimal-digit string parses to its value, anything else is
NaN (`none`); fractional, exponent and hex literals are not modelled. -/
def jsNumber (s : List Char) : Option ℤ :=
  match s with
  | [] => some 0
  | '+' :: rest =>
    if rest ≠ [] ∧ rest.all Char.isDigit then some (digitsVal rest) else none
  | '-' :: rest =>
    if rest ≠ [] ∧ rest.all Char.isDigit then some (-(digitsVal rest : ℤ)) else none
  | _ => if s.all Char.isDigit then some (digitsVal s) else none

namespace V2

/-- `normalizeStockText` from `src/server.js` lines 198-209: empty stock
reports out-of-stock (with the restock date when present), the literal
presence markers `有`/`無` map to in-stock/out-of-stock, numeric stock
reports the available count when positive, and any other text is passed
through verbatim. -/
def normalizeStockText (item : Product) : List Char :=
  let s := trimS item.stock
  if s = [] then
    if item.restock_eta ≠ [] then
      ['缺', '貨', '，', '預', '計', '補', '貨', '日', '：'] ++ item.restock_eta
    else ['缺', '貨', '（', '待', '確', '認', '補', '貨', '日', '）']
  else if s = ['有'] then ['有', '貨']
  else if s = ['無'] then
    if item.restock_eta ≠ [] then
      ['缺', '貨', '，', '預', '計', '補', '貨', '日', '：'] ++ item.restock_eta
    else ['缺', '貨']
  else
    match jsNumber s with
    | some n =>
      if 0 < n then ['在', '庫', '中', '，', '可', '出', ' '] ++ intChars n
      else if item.restock_eta ≠ [] then
        ['缺', '貨', '，', '預', '計', '補', '貨', '日', '：'] ++ item.restock_eta
      else ['缺', '貨']
    | none => s

/-- The price line `定價：${item.price} 元` of `handleMultiQuery`
(`src/server.js` line 140). -/
def priceLine (item : Product) : List Char :=
  ['定', '價', '：'] ++ natChars item.price ++ [' ', '元']

/-- The "not found" block of `handleMultiQuery` (line 131). -/
def notFoundBlock (kw : List Char) : List Char :=
  ['找', '不', '到', '「'] ++ kw ++
    ['」', '，', '請', '確', '認', '品', '名', '或', '代', '碼', '。']

/-- One `code｜name` line of the multi-match block (line 135). -/
def multiLine (p : Product) : List Char := p.code ++ ['｜'] ++ p.name

/-- The multi-match block of `handleMultiQuery` (lines 135-136). -/
def multiBlock (ps : List Product) : List Char :=
  ['找', '到', '多', '個', '相', '似', '品', '項', '：', '\n'] ++
    joinSep ['\n'] (ps.map multiLine) ++
    ['\n', '請', '輸', '入', '更', '明', '確', '的', '品', '名', '或', '代', '碼', '。']

/-- The single-match block of `handleMultiQuery` (lines 139-146):
`《name》`, the price line when `wantsPrice` or neither flag is set, the
stock line when `wantsStock` or neither flag is set, finally trimmed. -/
def singleBlock (wp ws : Bool) (item : Product) : List Char :=
  trimS (['《'] ++ item.name ++ ['》', '\n'] ++
    (if wp || (!wp && !ws) then priceLine item ++ ['\n'] else []) ++
    (if ws || (!wp && !ws) then ['庫', '存', '：'] ++ normalizeStockText item else []))

/-- The block `handleMultiQuery` pushes for one keyword (lines 128-147). -/
def blockFor (list : List Product) (wp ws : Bool) (kw : List Char) : List Char :=
  match searchProductFuzzy list kw with
  | none => notFoundBlock kw
  | some (.multi ps) => multiBlock ps
  | some (.single item) => singleBlock wp ws item

/-- All blocks of `handleMultiQuery` in keyword order (lines 127-147). -/
def handleMultiBlocks (list : List Product) (wp ws : Bool)
    (kws : List (List Char)) : List (List Char) :=
  kws.map (blockFor list wp ws)

end V2

theorem trimL_cons_not_sp {c : Char} {l : List Char} (h : isSp c = false) :
    trimL (c :: l) = c :: l := by
  simp [trimL, List.dropWhile_cons, h]

theorem trimR_concat_not_sp {t : List Char} {c : Char} (h : isSp c = false) :
    trimR (t ++ [c]) = t ++ [c] := by
  simp [trimR, List.dropWhile_cons, h]

theorem trimR_snoc_sp {t : List Char} {c : Char} (h : isSp c = true) :
    trimR (t ++ [c]) = trimR t := by
  simp [trimR, List.dropWhile_cons, h]

theorem trimS_of_shape {c : Char} {mid : List Char} {d : Char}
    (hc : isSp c = false) (hd : isSp d = false) :
    trimS (c :: (mid ++ [d])) = c :: (mid ++ [d]) := by
  rw [trimS]
  have h1 : trimR (c :: (mid ++ [d])) = c :: (mid ++ [d]) := by
    have h2 := trimR_concat_not_sp (t := c :: mid) hd
    simpa using h2
  rw [h1]
  exact trimL_cons_not_sp hc

theorem trimS_of_shape_newline {c : Char} {mid : List Char} {d e : Char}
    (hc : isSp c = false) (hd : isSp d = false) (he : isSp e = true) :
    trimS (c :: (mid ++ [d, e])) = c :: (mid ++ [d]) := by
  rw [trimS]
  have h1 : (c :: (mid ++ [d, e])) = ((c :: mid) ++ [d]) ++ [e] := by simp
  rw [h1, trimR_snoc_sp he, trimR_concat_not_sp hd]
  have h2 : ((c :: mid) ++ [d]) = c :: (mid ++ [d]) := by simp
  rw [h2]
  exact trimL_cons_not_sp hc

theorem trimL_length_le (l : List Char) : (trimL l).length ≤ l.length :=
  (List.dropWhile_sublist _).length_le

theorem trimR_length_le (l : List Char) : (trimR l).length ≤ l.length := by
  rw [trimR, List.length_reverse]
  calc (l.reverse.dropWhile isSp).length ≤ l.reverse.length :=
        (List.dropWhile_sublist _).length_le
    _ = l.length := List.length_reverse l

theorem ends_not_sp_of_trimmed {l : List Char} (h : trimS l = l) (hne : l ≠ []) :
    ∃ t d, l = t ++ [d] ∧ isSp d = false := by
  rcases List.eq_nil_or_concat l with rfl | ⟨t, d, hl⟩
  · exact absurd rfl hne
  · rw [List.concat_eq_append] at hl
    subst hl
    by_cases hd : isSp d = true
    · exfalso
      have h1 : trimS (t ++ [d]) = trimL (trimR t) := by
        rw [trimS, trimR_snoc_sp hd]
      have h2 : (trimS (t ++ [d])).length ≤ t.length :=
        h1 ▸ le_trans (trimL_length_le _) (trimR_length_le _)
      rw [h] at h2
      simp [List.length_append] at h2
    · exact ⟨t, d, rfl, by simpa using hd⟩

theorem natChars_ends_digit (n : ℕ) :
    ∃ t d, natChars n = t ++ [digitChar d] ∧ d < 10 := by
  rw [natChars.eq_1]
  by_cases h : n < 10
  · exact ⟨[], n, by rw [dif_pos h]; rfl, h⟩
  · exact ⟨natChars (n / 10), n % 10, by rw [dif_neg h], Nat.mod_lt _ (by omega)⟩

theorem digitChar_not_sp {d : ℕ} (h : d < 10) : isSp (digitChar d) = false := by
  interval_cases d <;> decide

theorem intChars_pos_ends_digit {n : ℤ} (h : 0 < n) :
    ∃ t d, intChars n = t ++ [digitChar d] ∧ d < 10 := by
  rw [intChars, if_neg (by omega : ¬ n < 0)]
  exact natChars_ends_digit n.toNat

/-- Under the `fetchProducts` contract that the stored fields are trimmed,
the normalized stock text never ends in whitespace. -/
theorem normalizeStockText_ends_not_sp (item : Product)
    (hstock : trimS item.stock = item.stock)
    (heta : trimS item.restock_eta = item.restock_eta) :
    ∃ t d, V2.normalizeStockText item = t ++ [d] ∧ isSp d = false := by
  have hetaEnds : item.restock_eta ≠ [] →
      ∃ t d, item.restock_eta = t ++ [d] ∧ isSp d = false :=
    fun hne => ends_not_sp_of_trimmed heta hne
  simp only [V2.normalizeStockText, hstock]
  by_cases h1 : item.stock = []
  · rw [if_pos h1]
    by_cases h2 : item.restock_eta ≠ []
    · rw [if_pos h2]
      obtain ⟨t, d, hd, hsp⟩ := hetaEnds h2
      exact ⟨['缺', '貨', '，', '預', '計', '補', '貨', '日', '：'] ++ t, d,
        by rw [hd]; simp, hsp⟩
    · rw [if_neg h2]
      exact ⟨['缺', '貨', '（', '待', '確', '認', '補', '貨', '日'], '）', rfl, by decide⟩
  · rw [if_neg h1]
    by_cases h2 : item.stock = ['有']
    · rw [if_pos h2]
      exact ⟨['有'], '貨', rfl, by decide⟩
    · rw [if_neg h2]
      by_cases h3 : item.stock = ['無']
      · rw [if_pos h3]
        by_cases h4 : item.restock_eta ≠ []
        · rw [if_pos h4]
          obtain ⟨t, d, hd, hsp⟩ := hetaEnds h4
          exact ⟨['缺', '貨', '，', '預', '計', '補', '貨', '日', '：'] ++ t, d,
            by rw [hd]; simp, hsp⟩
        · rw [if_neg h4]
          exact ⟨['缺'], '貨', rfl, by decide⟩
      · rw [if_neg h3]
        cases hn : jsNumber item.stock with
        | none =>
          simp only [hn]
          exact ends_not_sp_of_trimmed hstock h1
        | some n =>
          simp only [hn]
          by_cases h5 : 0 < n
          · rw [if_pos h5]
            obtain ⟨t, d, hd, hlt⟩ := intChars_pos_ends_digit h5
            exact ⟨['在', '庫', '中', '，', '可', '出', ' '] ++ t, digitChar d,
              by rw [hd]; simp, digitChar_not_sp hlt⟩
          · rw [if_neg h5]
            by_cases h6 : item.restock_eta ≠ []
            · rw [if_pos h6]
              obtain ⟨t, d, hd, hsp⟩ := hetaEnds h6
              exact ⟨['缺', '貨', '，', '預', '計', '補', '貨', '日', '：'] ++ t, d,
                by rw [hd]; simp, hsp⟩
            · rw [if_neg h6]
              exact ⟨['缺'], '貨', rfl, by decide⟩

/-- C8: in the batch orchestrator `handleMultiQuery`, when a keyword
resolves to a single match and neither `wantsPrice` nor `wantsStock` is
set, the formatted block contains both the price line and the stock line
(default-both policy); when exactly one flag is set, the block consists
of the product header followed by only the corresponding line.  The two
trimmed-field hypotheses reflect the `fetchProducts` contract that stored
string fields are trimmed. -/
theorem singleMatch_block_lines :
    ∀ (list : List Product) (wp ws : Bool) (kw : List Char) (item : Product),
      V2.searchProductFuzzy list kw = some (.single item) →
      trimS item.stock = item.stock →
      trimS item.restock_eta = item.restock_eta →
      (wp = false → ws = false →
          V2.blockFor list wp ws kw =
            ['《'] ++ item.name ++ ['》', '\n'] ++ V2.priceLine item ++ ['\n'] ++
              ['庫', '存', '：'] ++ V2.normalizeStockText item
          ∧ V2.priceLine item <:+: V2.blockFor list wp ws kw
          ∧ (['庫', '存', '：'] ++ V2.normalizeStockText item) <:+:
              V2.blockFor list wp ws kw)
      ∧ (wp = true → ws = false →
          V2.blockFor list wp ws kw =
            ['《'] ++ item.name ++ ['》', '\n'] ++ V2.priceLine item)
      ∧ (wp = false → ws = true →
          V2.blockFor list wp ws kw =
            ['《'] ++ item.name ++ ['》', '\n'] ++ ['庫', '存', '：'] ++
              V2.normalizeStockText item) := by
  intro list wp ws kw item hsearch hstock heta
  have hblock : V2.blockFor list wp ws kw = V2.singleBlock wp ws item := by
    simp [V2.blockFor, hsearch]
  obtain ⟨t, d, hS, hd⟩ := normalizeStockText_ends_not_sp item hstock heta
  refine ⟨?_, ?_, ?_⟩
  · rintro rfl rfl
    have hraw : V2.singleBlock false false item =
        trimS (['《'] ++ item.name ++ ['》', '\n'] ++ (V2.priceLine item ++ ['\n']) ++
          (['庫', '存', '：'] ++ V2.normalizeStockText item)) := rfl
    have hshape : (['《'] ++ item.name ++ ['》', '\n'] ++ (V2.priceLine item ++ ['\n']) ++
          (['庫', '存', '：'] ++ V2.normalizeStockText item)) =
        '《' :: ((item.name ++ ['》', '\n'] ++ V2.priceLine item ++
          ['\n', '庫', '存', '：'] ++ t) ++ [d]) := by
      rw [hS]
      simp
    have hmain : V2.blockFor list false false kw =
        ['《'] ++ item.name ++ ['》', '\n'] ++ V2.priceLine item ++ ['\n'] ++
          ['庫', '存', '：'] ++ V2.normalizeStockText item := by
      rw [hblock, hraw, hshape, trimS_of_shape (by decide) hd, ← hshape]
      simp
    refine ⟨hmain, ?_, ?_⟩
    · refine ⟨['《'] ++ item.name ++ ['》', '\n'],
        ['\n'] ++ ['庫', '存', '：'] ++ V2.normalizeStockText item, ?_⟩
      rw [hmain]
      simp
    · refine ⟨['《'] ++ item.name ++ ['》', '\n'] ++ V2.priceLine item ++ ['\n'], [], ?_⟩
      rw [hmain]
      simp
  · rintro rfl rfl
    have hraw : V2.singleBlock true false item =
        trimS (['《'] ++ item.name ++ ['》', '\n'] ++ (V2.priceLine item ++ ['\n']) ++
          []) := rfl
    have hpl : V2.priceLine item =
        (['定', '價', '：'] ++ natChars item.price ++ [' ']) ++ ['元'] := by
      rw [V2.priceLine]
      simp
    have hshape : (['《'] ++ item.name ++ ['》', '\n'] ++ (V2.priceLine item ++ ['\n']) ++
          ([] : List Char)) =
        '《' :: ((item.name ++ ['》', '\n', '定', '價', '：'] ++ natChars item.price ++
          [' ']) ++ ['元', '\n']) := by
      rw [hpl]
      simp
    rw [hblock, hraw, hshape, trimS_of_shape_newline (by decide) (by decide) (by decide),
      hpl]
    simp
  · rintro rfl rfl
    have hraw : V2.singleBlock false true item =
        trimS (['《'] ++ item.name ++ ['》', '\n'] ++ [] ++
          (['庫', '存', '：'] ++ V2.normalizeStockText item)) := rfl
    have hshape : (['《'] ++ item.name ++ ['》', '\n'] ++ ([] : List Char) ++
          (['庫', '存', '：'] ++ V2.normalizeStockText item)) =
        '《' :: ((item.name ++ ['》', '\n', '庫', '存', '：'] ++ t) ++ [d]) := by
      rw [hS]
      simp
    rw [hblock, hraw, hshape, trimS_of_shape (by decide) hd, ← hshape]
    simp

/-- Closed instantiation of the C8 theorem (neither flag set: both the
price line and the stock line appear in the block). -/
theorem singleMatch_block_lines_witness :
    V2.priceLine ⟨['c'], ['n'], 3, ['有'], [], []⟩ <:+:
      V2.blockFor [⟨['c'], ['n'], 3, ['有'], [], []⟩] false false ['c']
    ∧ (['庫', '存', '：'] ++ V2.normalizeStockText ⟨['c'], ['n'], 3, ['有'], [], []⟩) <:+:
      V2.blockFor [⟨['c'], ['n'], 3, ['有'], [], []⟩] false false ['c'] :=
  ⟨((singleMatch_block_lines [⟨['c'], ['n'], 3, ['有'], [], []⟩] false false ['c']
      ⟨['c'], ['n'], 3, ['有'], [], []⟩ (by decide) (by decide) (by decide)).1
      rfl rfl).2.1,
    ((singleMatch_block_lines [⟨['c'], ['n'], 3, ['有'], [], []⟩] false false ['c']
      ⟨['c'], ['n'], 3, ['有'], [], []⟩ (by decide) (by decide) (by decide)).1
      rfl rfl).2.2⟩
